import Mathlib

/-!
Verification of the `wrapdisc` library: floating-point rounding utilities
(`wrapdisc/util/float.py`), the variable-encoding hierarchy (`wrapdisc/var.py`),
and the objective wrapper.

Numbers are modelled as rationals.  Two levels of fidelity are used:

* an exact-arithmetic model, in which every Python float is read as the exact
  rational it denotes and `+ - * /` are exact — this is the standard shallow
  embedding used for the algorithmic claims;
* a bit-faithful IEEE-754 binary64 model (`F64` namespace), in which every
  arithmetic operation is followed by correct rounding to the nearest
  double-precision value (`fl`) — used for claims about exact double values.

`math.nextafter` (`next_float` / `prev_float`) is inherently a bit-level
operation, so it is modelled bit-faithfully in both models: the argument is
first rounded to the nearest binary64 value and then moved to the adjacent
representable value.

A Python `assert` failure (an `AssertionError`) is modelled by returning
`none`; a function that can raise returns an `Option`.
-/

namespace Wrapdisc

/-- Python `round` on a real value: round to the nearest integer, ties to even
(banker's rounding).  `Rat.floor` is used rather than `Int.floor` so that the
function evaluates by kernel reduction. -/
def roundHalfEven (q : ℚ) : ℤ :=
  let f := q.floor
  if q - f < 1/2 then f
  else if 1/2 < q - f then f + 1
  else if f % 2 = 0 then f else f + 1

/-- `2 ^ e` as a rational, for an integer exponent. -/
def pow2 (e : ℤ) : ℚ :=
  if 0 ≤ e then ((2 ^ e.toNat : ℕ) : ℚ) else 1 / ((2 ^ (-e).toNat : ℕ) : ℚ)

/-- Bit length of a natural number, with explicit fuel (sufficient for all
numbers up to `2 ^ 4200`, far beyond anything in this development). -/
def bitsAux : ℕ → ℕ → ℕ
  | 0, _ => 0
  | fuel + 1, n => if n = 0 then 0 else bitsAux fuel (n / 2) + 1

/-- Bit length of a natural number: `0` for `0`, otherwise `⌊log2 n⌋ + 1`. -/
def bits (n : ℕ) : ℕ := bitsAux 4200 n

/-- For a positive rational `a`, the binade exponent: the unique `e` with
`2 ^ e ≤ a < 2 ^ (e + 1)`. -/
def expOf (a : ℚ) : ℤ :=
  let e0 : ℤ := (bits a.num.natAbs : ℤ) - (bits a.den : ℤ)
  if pow2 e0 ≤ a then e0 else e0 - 1

/-- The distance between consecutive binary64 values in the binade of
exponent `e` (clamped below at the subnormal step `2 ^ (-1074)`). -/
def ulpStep (e : ℤ) : ℚ := pow2 (max (e - 52) (-1074))

/-- Round a real value to the nearest IEEE-754 binary64 value (ties to even),
returned as the exact rational that the double denotes.  Overflow to infinity
is outside the modelled range and is not treated specially. -/
def fl (q : ℚ) : ℚ :=
  if q = 0 then 0
  else
    let a := |q|
    let st := ulpStep (expOf a)
    let m := roundHalfEven (a / st)
    if q < 0 then -(m * st) else m * st

/-- The largest binary64 value strictly below a positive binary64 value `b`:
stepping down crosses into the next binade exactly when `b` is a power of two. -/
def predPos (b : ℚ) : ℚ :=
  let e := expOf b
  if b = pow2 e then b - ulpStep (e - 1) else b - ulpStep e

/-- `next_float(val)` (`wrapdisc/util/float.py`): the binary64 value next
after the given value, i.e. `math.nextafter(val, math.inf)`.  The argument is
first rounded to the nearest binary64 value. -/
def next_float (q : ℚ) : ℚ :=
  let v := fl q
  if v = 0 then pow2 (-1074)
  else if 0 < v then v + ulpStep (expOf v)
  else -(predPos (-v))

/-- `prev_float(val)` (`wrapdisc/util/float.py`): the binary64 value just
before the given value, i.e. `math.nextafter(val, -math.inf)`. -/
def prev_float (q : ℚ) : ℚ := -(next_float (-q))

/-- `math.isclose(a, b)` with its default tolerances (`rel_tol = 1e-9`,
`abs_tol = 0.0`), in exact arithmetic. -/
def isclose (a b : ℚ) : Bool :=
  decide (|a - b| ≤ max (1 / 1000000000 * max |a| |b|) 0)

/-- `round_nearest(num, to)` (`wrapdisc/util/float.py`): round `num` to the
nearest multiple of `to`, computed as `round(num / to) * to`, in exact
arithmetic. -/
def round_nearest (num toq : ℚ) : ℚ :=
  (roundHalfEven (num / toq) : ℚ) * toq

/-- `round_nearest(num, to)` for an integer quantum `to`: in Python,
`round(num / to) * to` is then an `int`. -/
def round_nearest_int (num : ℚ) (toq : ℤ) : ℤ :=
  roundHalfEven (num / (toq : ℚ)) * toq

/-- `round_down(num, to)` (`wrapdisc/util/float.py`), in exact arithmetic. -/
def round_down (num toq : ℚ) : ℚ :=
  let nearest := round_nearest num toq
  if isclose num nearest then num
  else if nearest < num then nearest else nearest - toq

/-- `round_up(num, to)` (`wrapdisc/util/float.py`), in exact arithmetic. -/
def round_up (num toq : ℚ) : ℚ :=
  let nearest := round_nearest num toq
  if isclose num nearest then num
  else if num < nearest then nearest else nearest + toq

/-! ### Variable encodings (`wrapdisc/var.py`), exact-arithmetic model

Each Python class becomes a structure; its `__init__` assertions become a
smart constructor `make` returning an `Option`; `bounds` and `decode` return
`Option` when they contain assertions.  The `isinstance` checks of the source
are discharged by typing (encoded slices are lists of rationals). -/

/-- `UniformVar(lower, upper)` configuration (`wrapdisc/var.py`). -/
structure UniformVar where
  lower : ℚ
  upper : ℚ
deriving DecidableEq

/-- `UniformVar.__init__`: asserts `lower <= upper`. -/
def UniformVar.make (lower upper : ℚ) : Option UniformVar :=
  if lower ≤ upper then some ⟨lower, upper⟩ else none

/-- `UniformVar.bounds`: the single pair `(lower, upper)`. -/
def UniformVar.bound (v : UniformVar) : ℚ × ℚ := (v.lower, v.upper)

/-- `UniformVar.decode`. -/
def UniformVar.decode (v : UniformVar) (encoded : List ℚ) : Option ℚ :=
  match encoded with
  | [x] =>
    if v.bound.1 ≤ x ∧ x ≤ v.bound.2 then
      if v.lower ≤ x ∧ x ≤ v.upper then some x else none
    else none
  | _ => none

/-- `QuniformVar(lower, upper, q)` configuration (`wrapdisc/var.py`). -/
structure QuniformVar where
  lower : ℚ
  upper : ℚ
  quantum : ℚ
deriving DecidableEq

/-- `QuniformVar.__init__`: asserts `lower <= upper` and
`0 < q <= upper - lower`. -/
def QuniformVar.make (lower upper q : ℚ) : Option QuniformVar :=
  if lower ≤ upper ∧ 0 < q ∧ q ≤ upper - lower then some ⟨lower, upper, q⟩ else none

/-- `QuniformVar.bounds`: the computed bound pair, or `none` when one of the
internal assertions fails. -/
def QuniformVar.bound (v : QuniformVar) : Option (ℚ × ℚ) :=
  let half_step := v.quantum / 2
  let quantized_lower := round_up v.lower v.quantum
  let quantized_upper := round_down v.upper v.quantum
  if v.lower ≤ quantized_lower ∧ quantized_lower ≤ quantized_upper ∧
      quantized_upper ≤ v.upper ∧ v.quantum ≤ quantized_upper - quantized_lower then
    some (next_float (quantized_lower - half_step), prev_float (quantized_upper + half_step))
  else none

/-- `QuniformVar.decode`. -/
def QuniformVar.decode (v : QuniformVar) (encoded : List ℚ) : Option ℚ :=
  match encoded, v.bound with
  | [x], some b =>
    if b.1 ≤ x ∧ x ≤ b.2 then
      let decoded := round_nearest x v.quantum
      if v.lower ≤ decoded ∧ decoded ≤ v.upper then some decoded else none
    else none
  | _, _ => none

/-- `RandintVar(lower, upper)` configuration (`wrapdisc/var.py`): integer
endpoints, both inclusive. -/
structure RandintVar where
  lower : ℤ
  upper : ℤ
deriving DecidableEq

/-- `RandintVar.__init__`: asserts `lower <= upper`. -/
def RandintVar.make (lower upper : ℤ) : Option RandintVar :=
  if lower ≤ upper then some ⟨lower, upper⟩ else none

/-- `RandintVar.bounds` (assertion-free in the source): the pair
`(next_float(lower - 0.5), prev_float(upper + 0.5))`. -/
def RandintVar.bound (v : RandintVar) : ℚ × ℚ :=
  (next_float ((v.lower : ℚ) - 1/2), prev_float ((v.upper : ℚ) + 1/2))

/-- `RandintVar.bounds` as the sequence handed to an optimizer: one pair. -/
def RandintVar.bounds (v : RandintVar) : List (ℚ × ℚ) := [v.bound]

/-- `RandintVar.decode`: `round(encoded[0])` with bound and range checks. -/
def RandintVar.decode (v : RandintVar) (encoded : List ℚ) : Option ℤ :=
  match encoded with
  | [x] =>
    if v.bound.1 ≤ x ∧ x ≤ v.bound.2 then
      let decoded := roundHalfEven x
      if v.lower ≤ decoded ∧ decoded ≤ v.upper then some decoded else none
    else none
  | _ => none

/-- `QrandintVar(lower, upper, q)` configuration (`wrapdisc/var.py`). -/
structure QrandintVar where
  lower : ℤ
  upper : ℤ
  quantum : ℤ
deriving DecidableEq

/-- `QrandintVar.__init__`: asserts `lower <= upper` and
`1 <= q <= upper - lower`. -/
def QrandintVar.make (lower upper q : ℤ) : Option QrandintVar :=
  if lower ≤ upper ∧ 1 ≤ q ∧ q ≤ upper - lower then some ⟨lower, upper, q⟩ else none

/-- `QrandintVar.bounds`: same algorithm as `QuniformVar.bounds`, on the
integer endpoints (in Python the intermediate quantized endpoints are
integers; their rational values coincide with these). -/
def QrandintVar.bound (v : QrandintVar) : Option (ℚ × ℚ) :=
  let half_step : ℚ := (v.quantum : ℚ) / 2
  let quantized_lower := round_up (v.lower : ℚ) (v.quantum : ℚ)
  let quantized_upper := round_down (v.upper : ℚ) (v.quantum : ℚ)
  if (v.lower : ℚ) ≤ quantized_lower ∧ quantized_lower ≤ quantized_upper ∧
      quantized_upper ≤ (v.upper : ℚ) ∧ (v.quantum : ℚ) ≤ quantized_upper - quantized_lower then
    some (next_float (quantized_lower - half_step), prev_float (quantized_upper + half_step))
  else none

/-- `QrandintVar.decode`: `round_nearest(encoded[0], q)` as an integer, with
bound and range checks. -/
def QrandintVar.decode (v : QrandintVar) (encoded : List ℚ) : Option ℤ :=
  match encoded, v.bound with
  | [x], some b =>
    if b.1 ≤ x ∧ x ≤ b.2 then
      let decoded := round_nearest_int x v.quantum
      if v.lower ≤ decoded ∧ decoded ≤ v.upper then some decoded else none
    else none
  | _, _ => none

/-- The index Python's `max(range(len(enc)), key=enc.__getitem__)` returns on
the tail `xs`, scanning left to right with current best index `bi` of value
`bv`, where `xs` starts at position `i`; the best is replaced only on a
strictly greater value, so the first maximum wins. -/
def argmaxAux : List ℚ → ℕ → ℕ → ℚ → ℕ
  | [], _, bi, _ => bi
  | x :: xs, i, bi, bv => if bv < x then argmaxAux xs (i + 1) i x else argmaxAux xs (i + 1) bi bv

/-- The first index of a maximal element of the list (Python
`max(range(len(enc)), key=enc.__getitem__)`). -/
def argmaxFirst : List ℚ → ℕ
  | [] => 0
  | x :: xs => argmaxAux xs 1 0 x

/-- `ChoiceVar(categories)` configuration (`wrapdisc/var.py`): categories of
an arbitrary type with decidable equality. -/
structure ChoiceVar (α : Type) where
  categories : List α

/-- `ChoiceVar.__init__`: asserts the category list is nonempty and free of
duplicates (`len(categories) == len(set(categories))`). -/
def ChoiceVar.make {α : Type} [DecidableEq α] (categories : List α) : Option (ChoiceVar α) :=
  if categories ≠ [] ∧ categories.Nodup then some ⟨categories⟩ else none

/-- `ChoiceVar.encoding_len`: `0` for a single category, otherwise the
category count. -/
def ChoiceVar.encoding_len {α : Type} (v : ChoiceVar α) : ℕ :=
  if v.categories.length = 1 then 0 else v.categories.length

/-- `ChoiceVar.bounds`: `encoding_len` copies of `(0.0, 1.0)`. -/
def ChoiceVar.bounds {α : Type} (v : ChoiceVar α) : List (ℚ × ℚ) :=
  List.replicate v.encoding_len (0, 1)

/-- `ChoiceVar.decode`: for two or more categories, the category at the first
position attaining the maximal slice value; for a single category, that
category. -/
def ChoiceVar.decode {α : Type} (v : ChoiceVar α) (encoded : List ℚ) : Option α :=
  if encoded.length = v.encoding_len then
    if 1 < v.encoding_len then
      if ∀ x ∈ encoded, 0 ≤ x ∧ x ≤ 1 then
        v.categories.get? (argmaxFirst encoded)
      else none
    else if v.encoding_len = 0 then v.categories.head? else none
  else none

/-- `GridVar(values)` configuration (`wrapdisc/var.py`): holds the sorted
value list and the inner `RandintVar(0, len(values) - 1)`. -/
structure GridVar (α : Type) where
  values : List α
  randint_var : RandintVar

/-- `GridVar.__init__`: asserts the list is nonempty, sorts it ascending,
asserts it is duplicate-free, and builds the inner integer-uniform variable
over the index range (whose own `lower <= upper` assertion cannot fail for a
nonempty list). -/
def GridVar.make {α : Type} [LinearOrder α] (values : List α) : Option (GridVar α) :=
  if values ≠ [] then
    let sortedValues := values.insertionSort (· ≤ ·)
    if sortedValues.Nodup then some ⟨sortedValues, ⟨0, (values.length : ℤ) - 1⟩⟩ else none
  else none

/-- `GridVar.bounds`: delegates to the inner `RandintVar`. -/
def GridVar.bound {α : Type} (v : GridVar α) : ℚ × ℚ := v.randint_var.bound

/-- `GridVar.bounds`: the bounds sequence, delegated to the inner
`RandintVar`. -/
def GridVar.bounds {α : Type} (v : GridVar α) : List (ℚ × ℚ) := v.randint_var.bounds

/-- `BaseVar.__len__` for a `GridVar`: the length of its bounds sequence. -/
def GridVar.encoding_len {α : Type} (v : GridVar α) : ℕ := v.bounds.length

/-- `GridVar.decode`: decodes the slice through the inner `RandintVar` and
looks the decoded index up in the sorted value list. -/
def GridVar.decode {α : Type} (v : GridVar α) (encoded : List ℚ) : Option α :=
  (v.randint_var.decode encoded).bind fun decoded => v.values.get? decoded.toNat

/-! ### Objective wrapper

The wrapper lives in `wrapdisc/wrapdisc.py`, which is not among the source
files; only its test is.  It is therefore modelled from the specification. -/

/-- Modelled from the spec: the mutable state of the objective wrapper
`Objective` (file `wrapdisc/wrapdisc.py`, absent from the sources) — an
unbounded memoization cache keyed by the exact encoding vector, plus the
hit and miss counters of its cache statistics.  The extra field `calls`
counts invocations of the user-supplied logical objective function, so that
"without re-invoking the logical function" is expressible. -/
structure ObjectiveState (κ ρ : Type) where
  cache : List (κ × ρ)
  hits : ℕ
  misses : ℕ
  calls : ℕ
deriving DecidableEq

/-- A freshly constructed wrapper: empty cache, zero counters. -/
def ObjectiveState.fresh {κ ρ : Type} : ObjectiveState κ ρ := ⟨[], 0, 0, 0⟩

/-- `currsize` of the cache statistics: the number of distinct keys cached. -/
def ObjectiveState.currsize {κ ρ : Type} (s : ObjectiveState κ ρ) : ℕ := s.cache.length

/-- Exact-key lookup in the memoization cache. -/
def cacheLookup {κ ρ : Type} [DecidableEq κ] : List (κ × ρ) → κ → Option ρ
  | [], _ => none
  | (k, r) :: rest, key => if k = key then some r else cacheLookup rest key

/-- Modelled from the spec: one evaluate call of the objective wrapper
(`Objective.__call__` in the absent `wrapdisc/wrapdisc.py`): if the exact key
was evaluated before, return the cached result (a hit) without calling the
logical function; otherwise call the logical function on the decoded tuple,
store the result under the key, and return it (a miss). -/
def Objective.evaluate {κ τ ρ : Type} [DecidableEq κ] (decodeFn : κ → τ) (objectiveFn : τ → ρ)
    (s : ObjectiveState κ ρ) (x : κ) : ρ × ObjectiveState κ ρ :=
  match cacheLookup s.cache x with
  | some r => (r, { s with hits := s.hits + 1 })
  | none =>
      let r := objectiveFn (decodeFn x)
      (r, { cache := (x, r) :: s.cache, hits := s.hits, misses := s.misses + 1,
            calls := s.calls + 1 })

/-! ### Bit-faithful binary64 model

Every arithmetic operation of the source is followed by correct rounding to
the nearest binary64 value, exactly as Python's float arithmetic behaves. -/

namespace F64

/-- Binary64 addition: exact sum, correctly rounded. -/
def add (a b : ℚ) : ℚ := fl (a + b)

/-- Binary64 subtraction: exact difference, correctly rounded. -/
def sub (a b : ℚ) : ℚ := fl (a - b)

/-- Binary64 multiplication: exact product, correctly rounded. -/
def mul (a b : ℚ) : ℚ := fl (a * b)

/-- Binary64 division: exact quotient, correctly rounded. -/
def div (a b : ℚ) : ℚ := fl (a / b)

/-- The binary64 value of a decimal literal `n * 10 ^ (-e)`, as Python
parses it (correctly rounded). -/
def pyfloat (n : ℤ) (e : ℕ) : ℚ := fl ((n : ℚ) / ((10 ^ e : ℕ) : ℚ))

/-- The binary64 value of the default `rel_tol = 1e-9` of `math.isclose`. -/
def relTol : ℚ := pyfloat 1 9

/-- `math.isclose(a, b)` in binary64 arithmetic. -/
def isclose (a b : ℚ) : Bool :=
  decide (|sub a b| ≤ max (mul relTol (max |a| |b|)) 0)

/-- `round_nearest(num, to)` in binary64 arithmetic: `round(num / to) * to`. -/
def round_nearest (num toq : ℚ) : ℚ :=
  mul ((roundHalfEven (div num toq) : ℤ) : ℚ) toq

/-- `round_down(num, to)` in binary64 arithmetic. -/
def round_down (num toq : ℚ) : ℚ :=
  let nearest := round_nearest num toq
  if isclose num nearest then num
  else if nearest < num then nearest else sub nearest toq

/-- `round_up(num, to)` in binary64 arithmetic. -/
def round_up (num toq : ℚ) : ℚ :=
  let nearest := round_nearest num toq
  if isclose num nearest then num
  else if num < nearest then nearest else add nearest toq

/-- `QuniformVar.__init__` followed by `QuniformVar.bounds` in binary64
arithmetic: `none` when an assertion of either fails, otherwise the computed
bound pair. -/
def quniformBound (lower upper quantum : ℚ) : Option (ℚ × ℚ) :=
  if lower ≤ upper ∧ 0 < quantum ∧ quantum ≤ sub upper lower then
    let half_step := div quantum 2
    let quantized_lower := round_up lower quantum
    let quantized_upper := round_down upper quantum
    if lower ≤ quantized_lower ∧ quantized_lower ≤ quantized_upper ∧
        quantized_upper ≤ upper ∧ quantum ≤ sub quantized_upper quantized_lower then
      some (next_float (sub quantized_lower half_step), prev_float (add quantized_upper half_step))
    else none
  else none

end F64

/-! ### Theorems -/

/-- C4: On a freshly constructed objective wrapper, one evaluate call yields
cache statistics hits = 0, misses = 1, currsize = 1; a second evaluate call
with the exact same encoding vector yields hits = 1, misses = 1, currsize = 1
and returns the identical cached result without invoking the logical
objective function again. -/
theorem objective_cache_hit_miss {κ τ ρ : Type} [DecidableEq κ]
    (decodeFn : κ → τ) (objectiveFn : τ → ρ) (x : κ) :
    (Objective.evaluate decodeFn objectiveFn ObjectiveState.fresh x).2.hits = 0 ∧
    (Objective.evaluate decodeFn objectiveFn ObjectiveState.fresh x).2.misses = 1 ∧
    (Objective.evaluate decodeFn objectiveFn ObjectiveState.fresh x).2.currsize = 1 ∧
    (Objective.evaluate decodeFn objectiveFn
        (Objective.evaluate decodeFn objectiveFn ObjectiveState.fresh x).2 x).1 =
      (Objective.evaluate decodeFn objectiveFn ObjectiveState.fresh x).1 ∧
    (Objective.evaluate decodeFn objectiveFn
        (Objective.evaluate decodeFn objectiveFn ObjectiveState.fresh x).2 x).2.hits = 1 ∧
    (Objective.evaluate decodeFn objectiveFn
        (Objective.evaluate decodeFn objectiveFn ObjectiveState.fresh x).2 x).2.misses = 1 ∧
    (Objective.evaluate decodeFn objectiveFn
        (Objective.evaluate decodeFn objectiveFn ObjectiveState.fresh x).2 x).2.currsize = 1 ∧
    (Objective.evaluate decodeFn objectiveFn
        (Objective.evaluate decodeFn objectiveFn ObjectiveState.fresh x).2 x).2.calls =
      (Objective.evaluate decodeFn objectiveFn ObjectiveState.fresh x).2.calls := by
  simp [Objective.evaluate, ObjectiveState.fresh, ObjectiveState.currsize, cacheLookup]

/-- C7: For every `ChoiceVar` constructed from a list with exactly one
category, construction succeeds, the encoding length is 0, the bounds
sequence is empty, and decoding the empty slice returns that sole
category. -/
theorem choice_single_category_shortcut {α : Type} [DecidableEq α] (a : α) :
    ChoiceVar.make [a] = some ⟨[a]⟩ ∧
    ChoiceVar.encoding_len (⟨[a]⟩ : ChoiceVar α) = 0 ∧
    ChoiceVar.bounds (⟨[a]⟩ : ChoiceVar α) = [] ∧
    ChoiceVar.decode (⟨[a]⟩ : ChoiceVar α) [] = some a := by
  simp [ChoiceVar.make, ChoiceVar.encoding_len, ChoiceVar.bounds, ChoiceVar.decode]

/-- C9: A `GridVar` built from a single-value list still consumes one flat
encoding dimension: construction yields the inner integer-uniform variable
over `[0, 0]`, the bounds are its single pair
`(next_float(0 - 0.5), prev_float(0 + 0.5))`, and the encoding length is 1 —
unlike the zero-length shortcut of a single-category `ChoiceVar`. -/
theorem grid_single_value_one_dimension {α : Type} [LinearOrder α] (a : α) :
    GridVar.make [a] = some ⟨[a], ⟨0, 0⟩⟩ ∧
    GridVar.bounds (⟨[a], ⟨0, 0⟩⟩ : GridVar α) = RandintVar.bounds ⟨0, 0⟩ ∧
    GridVar.bounds (⟨[a], ⟨0, 0⟩⟩ : GridVar α) =
      [(next_float ((0 : ℚ) - 1/2), prev_float ((0 : ℚ) + 1/2))] ∧
    GridVar.encoding_len (⟨[a], ⟨0, 0⟩⟩ : GridVar α) = 1 ∧
    ∀ (β : Type) (_instβ : DecidableEq β) (b : β),
      ChoiceVar.encoding_len (⟨[b]⟩ : ChoiceVar β) = 0 := by
  refine ⟨?_, rfl, ?_, rfl, ?_⟩
  · simp [GridVar.make]
  · simp [GridVar.bounds, RandintVar.bounds, RandintVar.bound]
  · intro β _instβ b
    simp [ChoiceVar.encoding_len]

/-- C8: Constructing any variable with an invalid configuration — lower >
upper, a non-positive quantum or a quantum exceeding upper − lower, an empty
category or grid list, or duplicate categories or grid values — fails at
construction time. -/
theorem invalid_construction_rejected :
    (∀ l u q : ℚ,
      (u < l → QuniformVar.make l u q = none) ∧
      (q ≤ 0 → QuniformVar.make l u q = none) ∧
      (u - l < q → QuniformVar.make l u q = none)) ∧
    (∀ l u : ℚ, u < l → UniformVar.make l u = none) ∧
    (∀ l u : ℤ, u < l → RandintVar.make l u = none) ∧
    (∀ l u q : ℤ,
      (u < l → QrandintVar.make l u q = none) ∧
      (q ≤ 0 → QrandintVar.make l u q = none) ∧
      (u - l < q → QrandintVar.make l u q = none)) ∧
    (∀ (α : Type) (_inst : DecidableEq α),
      ChoiceVar.make ([] : List α) = none ∧
      ∀ cats : List α, ¬cats.Nodup → ChoiceVar.make cats = none) ∧
    (∀ (α : Type) (_inst : LinearOrder α),
      GridVar.make ([] : List α) = none ∧
      ∀ vals : List α, ¬vals.Nodup → GridVar.make vals = none) := by
  refine ⟨fun l u q => ⟨fun h => ?_, fun h => ?_, fun h => ?_⟩,
    fun l u h => ?_, fun l u h => ?_,
    fun l u q => ⟨fun h => ?_, fun h => ?_, fun h => ?_⟩,
    fun α _inst => ⟨by simp [ChoiceVar.make], fun cats hdup => ?_⟩,
    fun α _inst => ⟨by simp [GridVar.make], fun vals hdup => ?_⟩⟩
  · exact if_neg (by rintro ⟨h1, -, -⟩; linarith)
  · exact if_neg (by rintro ⟨-, h2, -⟩; linarith)
  · exact if_neg (by rintro ⟨-, -, h3⟩; linarith)
  · exact if_neg (by intro h1; linarith)
  · exact if_neg (by intro h1; omega)
  · exact if_neg (by rintro ⟨h1, -, -⟩; omega)
  · exact if_neg (by rintro ⟨-, h2, -⟩; omega)
  · exact if_neg (by rintro ⟨-, -, h3⟩; omega)
  · exact if_neg (by rintro ⟨-, h2⟩; exact hdup h2)
  · rcases eq_or_ne vals [] with hv | hv
    · simp [GridVar.make, hv]
    · rw [GridVar.make, if_pos hv, if_neg]
      intro hnd
      exact hdup ((vals.perm_insertionSort (· ≤ ·)).nodup_iff.mp hnd)

/-- Witness for C8 at concrete invalid configurations. -/
theorem invalid_construction_rejected_instance :
    QuniformVar.make 3 1 1 = none ∧ QuniformVar.make 1 3 0 = none ∧
    QuniformVar.make 1 3 5 = none ∧ UniformVar.make 3 1 = none ∧
    RandintVar.make 3 1 = none ∧ QrandintVar.make 3 1 1 = none ∧
    QrandintVar.make 1 3 0 = none ∧ QrandintVar.make 1 3 5 = none ∧
    ChoiceVar.make ([] : List ℚ) = none ∧ ChoiceVar.make [(1 : ℚ), 1] = none ∧
    GridVar.make ([] : List ℚ) = none ∧ GridVar.make [(1 : ℚ), 1] = none :=
  ⟨(invalid_construction_rejected.1 3 1 1).1 (by norm_num),
   (invalid_construction_rejected.1 1 3 0).2.1 le_rfl,
   (invalid_construction_rejected.1 1 3 5).2.2 (by norm_num),
   invalid_construction_rejected.2.1 3 1 (by norm_num),
   invalid_construction_rejected.2.2.1 3 1 (by norm_num),
   (invalid_construction_rejected.2.2.2.1 3 1 1).1 (by norm_num),
   (invalid_construction_rejected.2.2.2.1 1 3 0).2.1 le_rfl,
   (invalid_construction_rejected.2.2.2.1 1 3 5).2.2 (by norm_num),
   (invalid_construction_rejected.2.2.2.2.1 ℚ inferInstance).1,
   (invalid_construction_rejected.2.2.2.2.1 ℚ inferInstance).2 [1, 1] (by simp),
   (invalid_construction_rejected.2.2.2.2.2 ℚ inferInstance).1,
   (invalid_construction_rejected.2.2.2.2.2 ℚ inferInstance).2 [1, 1] (by simp)⟩

/-- `Rat.floor` agrees with the floor of the ordered-field structure. -/
theorem ratFloor_eq_intFloor (q : ℚ) : q.floor = ⌊q⌋ := by
  rw [Rat.floor_def', Rat.floor_def]

/-- Python `round` lands within a half of its argument. -/
theorem roundHalfEven_dist (q : ℚ) :
    q - 1/2 ≤ (roundHalfEven q : ℚ) ∧ (roundHalfEven q : ℚ) ≤ q + 1/2 := by
  have h0 : ((⌊q⌋ : ℤ) : ℚ) ≤ q := Int.floor_le q
  have h1 : q < (⌊q⌋ : ℚ) + 1 := Int.lt_floor_add_one q
  simp only [roundHalfEven, ratFloor_eq_intFloor]
  split_ifs with hc1 hc2 hc3 <;> push_cast <;> constructor <;> linarith

/-- `math.isclose` is reflexive: equal values are always close. -/
theorem isclose_self (a : ℚ) : isclose a a = true := by
  simp [isclose]

/-- C5: For every `num` and every positive `to`, `round_down num to` returns
the nearest (i.e. greatest) multiple of `to` that is ≤ `num`, except that when
the nearest multiple overall is approximately equal to `num` under the
standard floating-point closeness tolerance, `num` itself is returned
unchanged; `round_up` is symmetric, returning the nearest (least) multiple
that is ≥ `num`. -/
theorem round_down_round_up_nearest_multiple (num toq : ℚ) (hpos : 0 < toq) :
    (isclose num (round_nearest num toq) = true →
      round_down num toq = num ∧ round_up num toq = num) ∧
    (isclose num (round_nearest num toq) = false →
      (∃ k : ℤ, round_down num toq = (k : ℚ) * toq) ∧
      round_down num toq ≤ num ∧
      (∀ k : ℤ, (k : ℚ) * toq ≤ num → (k : ℚ) * toq ≤ round_down num toq) ∧
      (∃ k : ℤ, round_up num toq = (k : ℚ) * toq) ∧
      num ≤ round_up num toq ∧
      (∀ k : ℤ, num ≤ (k : ℚ) * toq → round_up num toq ≤ (k : ℚ) * toq)) := by
  set r := roundHalfEven (num / toq) with hr
  have hnear : round_nearest num toq = (r : ℚ) * toq := rfl
  have hd := roundHalfEven_dist (num / toq)
  have hdiv : num / toq * toq = num := div_mul_cancel₀ num (ne_of_gt hpos)
  have hlo : num - toq / 2 ≤ (r : ℚ) * toq := by
    have := mul_le_mul_of_nonneg_right hd.1 (le_of_lt hpos)
    rw [sub_mul, hdiv] at this
    linarith
  have hhi : (r : ℚ) * toq ≤ num + toq / 2 := by
    have := mul_le_mul_of_nonneg_right hd.2 (le_of_lt hpos)
    rw [add_mul, hdiv] at this
    linarith
  have hstep : ∀ k1 k2 : ℤ, ((k1 : ℚ)) * toq < ((k2 : ℚ)) * toq →
      (k1 : ℚ) * toq + toq ≤ (k2 : ℚ) * toq := by
    intro k1 k2 h
    have hk : (k1 : ℚ) < (k2 : ℚ) := lt_of_mul_lt_mul_right h (le_of_lt hpos)
    have hk2 : k1 < k2 := by exact_mod_cast hk
    have hk3 : (k1 : ℚ) + 1 ≤ (k2 : ℚ) := by exact_mod_cast Int.add_one_le_iff.mpr hk2
    nlinarith
  constructor
  · intro hcl
    rw [round_down, round_up]
    exact ⟨if_pos hcl, if_pos hcl⟩
  · intro hcl
    have hne : (r : ℚ) * toq ≠ num := by
      intro he
      rw [hnear, he, isclose_self] at hcl
      simp at hcl
    have hclP : ¬ (isclose num ((r : ℚ) * toq) = true) := by
      rw [← hnear, hcl]
      simp
    rw [round_down, round_up, hnear, if_neg hclP, if_neg hclP]
    rcases lt_or_gt_of_ne hne with hlt | hgt
    · rw [if_pos hlt, if_neg (by linarith)]
      refine ⟨⟨r, rfl⟩, le_of_lt hlt, fun k hk => ?_, ⟨r + 1, by push_cast; ring⟩,
        by linarith, fun k hk => ?_⟩
      · by_contra hgk
        push_neg at hgk
        have := hstep r k hgk
        linarith
      · have h1 : (r : ℚ) * toq < (k : ℚ) * toq := lt_of_lt_of_le hlt hk
        exact hstep r k h1
    · rw [if_neg (by linarith), if_pos hgt]
      refine ⟨⟨r - 1, by push_cast; ring⟩, by linarith, fun k hk => ?_, ⟨r, rfl⟩,
        le_of_lt hgt, fun k hk => ?_⟩
      · have h1 : (k : ℚ) * toq < (r : ℚ) * toq := lt_of_le_of_lt hk hgt
        have := hstep k r h1
        linarith
      · by_contra hgk
        push_neg at hgk
        have := hstep k r hgk
        linarith

/-- Witness for C5 at `num = 0.7`, `to = 0.5` (not close; nearest multiple
below is `0.5`, above is `1.0`). -/
theorem round_down_round_up_nearest_multiple_instance :
    isclose (7/10 : ℚ) (round_nearest (7/10) (1/2)) = false ∧
    ((∃ k : ℤ, round_down (7/10 : ℚ) (1/2) = (k : ℚ) * (1/2)) ∧
      round_down (7/10 : ℚ) (1/2) ≤ 7/10 ∧
      (∀ k : ℤ, (k : ℚ) * (1/2) ≤ 7/10 → (k : ℚ) * (1/2) ≤ round_down (7/10 : ℚ) (1/2)) ∧
      (∃ k : ℤ, round_up (7/10 : ℚ) (1/2) = (k : ℚ) * (1/2)) ∧
      (7/10 : ℚ) ≤ round_up (7/10) (1/2) ∧
      (∀ k : ℤ, (7/10 : ℚ) ≤ (k : ℚ) * (1/2) → round_up (7/10 : ℚ) (1/2) ≤ (k : ℚ) * (1/2))) :=
  ⟨by with_unfolding_all rfl,
   (round_down_round_up_nearest_multiple (7/10) (1/2) (by norm_num)).2
     (by with_unfolding_all rfl)⟩

/-- Invariant of the `argmaxAux` scan: either the incoming best survives
(every scanned value is at most its value), or the scan returns the position
`i + k` of the first maximum within `xs` that strictly beats the incoming
best value. -/
theorem argmaxAux_spec (xs : List ℚ) : ∀ (i bi : ℕ) (bv : ℚ),
    (argmaxAux xs i bi bv = bi ∧ ∀ j, j < xs.length → xs.getD j 0 ≤ bv) ∨
    (∃ k, k < xs.length ∧ argmaxAux xs i bi bv = i + k ∧ bv < xs.getD k 0 ∧
      (∀ j, j < xs.length → xs.getD j 0 ≤ xs.getD k 0) ∧
      (∀ j, j < k → xs.getD j 0 < xs.getD k 0)) := by
  induction xs with
  | nil =>
    intro i bi bv
    exact Or.inl ⟨rfl, fun j hj => by simp at hj⟩
  | cons x t ih =>
    intro i bi bv
    by_cases hbx : bv < x
    · rw [show argmaxAux (x :: t) i bi bv = argmaxAux t (i + 1) i x from by
        rw [argmaxAux, if_pos hbx]]
      rcases ih (i + 1) i x with ⟨h1, h2⟩ | ⟨k, hk, h1, hbv, hmax, hpref⟩
      · refine Or.inr ⟨0, Nat.succ_pos _, by rwa [Nat.add_zero], by simpa using hbx, ?_,
          fun j hj => absurd hj (Nat.not_lt_zero j)⟩
        intro j hj
        cases j with
        | zero => simp
        | succ n =>
          simp only [List.getD_cons_succ, List.getD_cons_zero]
          exact h2 n (by simpa using hj)
      · refine Or.inr ⟨k + 1, by simpa using hk, by rw [h1]; omega, ?_, ?_, ?_⟩
        · simp only [List.getD_cons_succ]
          exact lt_trans hbx hbv
        · intro j hj
          cases j with
          | zero =>
            simp only [List.getD_cons_zero, List.getD_cons_succ]
            exact le_of_lt hbv
          | succ n =>
            simp only [List.getD_cons_succ]
            exact hmax n (by simpa using hj)
        · intro j hj
          cases j with
          | zero =>
            simp only [List.getD_cons_zero, List.getD_cons_succ]
            exact hbv
          | succ n =>
            simp only [List.getD_cons_succ]
            exact hpref n (by omega)
    · rw [show argmaxAux (x :: t) i bi bv = argmaxAux t (i + 1) bi bv from by
        rw [argmaxAux, if_neg hbx]]
      rcases ih (i + 1) bi bv with ⟨h1, h2⟩ | ⟨k, hk, h1, hbv, hmax, hpref⟩
      · refine Or.inl ⟨h1, ?_⟩
        intro j hj
        cases j with
        | zero => simpa using le_of_not_lt hbx
        | succ n =>
          simp only [List.getD_cons_succ]
          exact h2 n (by simpa using hj)
      · refine Or.inr ⟨k + 1, by simpa using hk, by rw [h1]; omega, ?_, ?_, ?_⟩
        · simp only [List.getD_cons_succ]
          exact hbv
        · intro j hj
          cases j with
          | zero =>
            simp only [List.getD_cons_zero, List.getD_cons_succ]
            exact le_of_lt (lt_of_le_of_lt (le_of_not_lt hbx) hbv)
          | succ n =>
            simp only [List.getD_cons_succ]
            exact hmax n (by simpa using hj)
        · intro j hj
          cases j with
          | zero =>
            simp only [List.getD_cons_zero, List.getD_cons_succ]
            exact lt_of_le_of_lt (le_of_not_lt hbx) hbv
          | succ n =>
            simp only [List.getD_cons_succ]
            exact hpref n (by omega)

/-- `argmaxFirst` returns a valid index holding a maximal value, strictly
greater than every value before it. -/
theorem argmaxFirst_spec (l : List ℚ) (hne : l ≠ []) :
    argmaxFirst l < l.length ∧
    (∀ j, j < l.length → l.getD j 0 ≤ l.getD (argmaxFirst l) 0) ∧
    (∀ j, j < argmaxFirst l → l.getD j 0 < l.getD (argmaxFirst l) 0) := by
  match l with
  | [] => exact absurd rfl hne
  | x :: t =>
    rw [show argmaxFirst (x :: t) = argmaxAux t 1 0 x from rfl]
    rcases argmaxAux_spec t 1 0 x with ⟨h1, h2⟩ | ⟨k, hk, h1, hbv, hmax, hpref⟩
    · rw [h1]
      refine ⟨Nat.succ_pos _, ?_, fun j hj => absurd hj (Nat.not_lt_zero j)⟩
      intro j hj
      cases j with
      | zero => simp
      | succ n =>
        simp only [List.getD_cons_succ, List.getD_cons_zero]
        exact h2 n (by simpa using hj)
    · rw [h1, show 1 + k = k + 1 from Nat.add_comm 1 k]
      refine ⟨by simpa using hk, ?_, ?_⟩
      · intro j hj
        cases j with
        | zero =>
          simp only [List.getD_cons_zero, List.getD_cons_succ]
          exact le_of_lt hbv
        | succ n =>
          simp only [List.getD_cons_succ]
          exact hmax n (by simpa using hj)
      · intro j hj
        cases j with
        | zero =>
          simp only [List.getD_cons_zero, List.getD_cons_succ]
          exact hbv
        | succ n =>
          simp only [List.getD_cons_succ]
          exact hpref n (by omega)

/-- C3: For every `ChoiceVar` with two or more categories and every encoded
slice of matching length whose values all lie in [0, 1], decode returns the
category at the first position (in input order) attaining the maximum slice
value; in particular decoding `[0.5, 0.5]` for categories
`["foobar", "baz"]` returns `"foobar"`. -/
theorem choice_decode_first_max :
    (∀ (α : Type) (_inst : DecidableEq α) (cats : List α) (v : ChoiceVar α) (enc : List ℚ),
      ChoiceVar.make cats = some v → 2 ≤ cats.length → enc.length = cats.length →
      (∀ x ∈ enc, 0 ≤ x ∧ x ≤ 1) →
      ∃ i, i < enc.length ∧ v.decode enc = cats.get? i ∧
        (∀ j, j < enc.length → enc.getD j 0 ≤ enc.getD i 0) ∧
        (∀ j, j < i → enc.getD j 0 < enc.getD i 0)) ∧
    ChoiceVar.decode ⟨["foobar", "baz"]⟩ [1/2, 1/2] = some "foobar" := by
  constructor
  · intro α _inst cats v enc hmk h2 hlen hrange
    have hv : v = ⟨cats⟩ := by
      rw [ChoiceVar.make] at hmk
      split_ifs at hmk
      exact (Option.some_inj.mp hmk).symm
    subst hv
    have hel : ChoiceVar.encoding_len (⟨cats⟩ : ChoiceVar α) = cats.length := by
      rw [ChoiceVar.encoding_len]
      exact if_neg (show ¬cats.length = 1 by omega)
    have hspec := argmaxFirst_spec enc (List.ne_nil_of_length_pos (by omega))
    refine ⟨argmaxFirst enc, hspec.1, ?_, hspec.2.1, hspec.2.2⟩
    rw [ChoiceVar.decode, if_pos (by rw [hel, hlen]), if_pos (by rw [hel]; omega),
      if_pos hrange]
  · with_unfolding_all rfl

/-- Witness for C3 at the two-category tie: categories
`["foobar", "baz"]`, slice `[0.5, 0.5]`. -/
theorem choice_decode_first_max_instance :
    ∃ i, i < ([(1 : ℚ)/2, 1/2] : List ℚ).length ∧
      ChoiceVar.decode ⟨["foobar", "baz"]⟩ [1/2, 1/2] = ["foobar", "baz"].get? i ∧
      (∀ j, j < ([(1 : ℚ)/2, 1/2] : List ℚ).length →
        ([(1 : ℚ)/2, 1/2] : List ℚ).getD j 0 ≤ ([(1 : ℚ)/2, 1/2] : List ℚ).getD i 0) ∧
      (∀ j, j < i → ([(1 : ℚ)/2, 1/2] : List ℚ).getD j 0 < ([(1 : ℚ)/2, 1/2] : List ℚ).getD i 0) :=
  choice_decode_first_max.1 String inferInstance ["foobar", "baz"] ⟨["foobar", "baz"]⟩
    [1/2, 1/2] (by with_unfolding_all rfl) (by norm_num) (by norm_num)
    (by intro x hx; simp at hx; subst hx; norm_num)

/-- C6: A `GridVar` stores its values sorted ascending and delegates bounds
and decode to an inner integer-uniform variable over the index range
`[0, count − 1]`, with the decoded index looked up in the sorted list; in
particular any list with the elements `10, 0.1, 100, 0.01, 1` (in any order)
is stored as `[0.01, 0.1, 1, 10, 100]` and decoding index 0 yields `0.01`. -/
theorem grid_sorted_and_delegates :
    (∀ (α : Type) (_inst : LinearOrder α) (vals : List α) (v : GridVar α),
      GridVar.make vals = some v →
      v.values.Sorted (· ≤ ·) ∧ v.values.Perm vals ∧
      v.randint_var = ⟨0, (vals.length : ℤ) - 1⟩ ∧
      v.bound = v.randint_var.bound ∧
      (∀ enc, v.decode enc = (v.randint_var.decode enc).bind
        fun decoded => v.values.get? decoded.toNat)) ∧
    (∀ l : List ℚ, l.Perm [10, 1/10, 100, 1/100, 1] →
      GridVar.make l = some ⟨[1/100, 1/10, 1, 10, 100], ⟨0, 4⟩⟩ ∧
      GridVar.decode (⟨[1/100, 1/10, 1, 10, 100], ⟨0, 4⟩⟩ : GridVar ℚ) [0] = some (1/100)) := by
  constructor
  · intro α _inst vals v hmk
    simp only [GridVar.make] at hmk
    split_ifs at hmk with h1 h2
    injection hmk with hv
    subst hv
    exact ⟨List.sorted_insertionSort _ _, List.perm_insertionSort _ _, rfl, rfl,
      fun enc => rfl⟩
  · intro l hperm
    have hlen : l.length = 5 := by rw [hperm.length_eq]; rfl
    have hne : l ≠ [] := List.ne_nil_of_length_pos (by omega)
    have hpt : ([10, 1/10, 100, 1/100, 1] : List ℚ).Perm [1/100, 1/10, 1, 10, 100] := by
      with_unfolding_all decide
    have hsorteq : l.insertionSort (· ≤ ·) = [1/100, 1/10, 1, 10, 100] := by
      apply List.eq_of_perm_of_sorted
        (((l.perm_insertionSort (· ≤ ·)).trans hperm).trans hpt)
        (List.sorted_insertionSort _ _)
      simp only [List.sorted_cons, List.mem_cons, List.mem_singleton, List.sorted_singleton,
        List.not_mem_nil, or_false, forall_eq_or_imp, forall_eq]
      norm_num
    constructor
    · rw [GridVar.make, if_pos hne]
      rw [hsorteq, if_pos (by norm_num), hlen]
      norm_num
    · with_unfolding_all rfl

/-- Witness for C6 at the input order `[10, 0.1, 100, 0.01, 1]` itself. -/
theorem grid_sorted_and_delegates_instance :
    GridVar.make [(10 : ℚ), 1/10, 100, 1/100, 1] =
      some ⟨[1/100, 1/10, 1, 10, 100], ⟨0, 4⟩⟩ ∧
    GridVar.decode (⟨[(1 : ℚ)/100, 1/10, 1, 10, 100], ⟨0, 4⟩⟩ : GridVar ℚ) [0] =
      some (1/100) :=
  grid_sorted_and_delegates.2 [10, 1/10, 100, 1/100, 1] (List.Perm.refl _)

/-- C10: For every `GridVar` and every encoded slice that the inner integer
variable's decode accepts with index `i`, the index lies in
`[0, count − 1]`, the lookup into the sorted value list succeeds, and the
decoded value is an element of the original input list. -/
theorem grid_decode_index_in_range :
    ∀ (α : Type) (_inst : LinearOrder α) (vals : List α) (v : GridVar α)
      (enc : List ℚ) (i : ℤ),
      GridVar.make vals = some v → v.randint_var.decode enc = some i →
      0 ≤ i ∧ i.toNat < v.values.length ∧
      ∃ x, v.decode enc = some x ∧ x ∈ vals := by
  intro α _inst vals v enc i hmk hdec
  have hdec0 := hdec
  simp only [GridVar.make] at hmk
  split_ifs at hmk with h1 h2
  injection hmk with hv
  subst hv
  have hlen2 : (vals.insertionSort (· ≤ ·)).length = vals.length :=
    (List.perm_insertionSort _ _).length_eq
  match enc with
  | [] => simp [RandintVar.decode] at hdec
  | x :: y :: rest => simp [RandintVar.decode] at hdec
  | [x] =>
    simp only [RandintVar.decode] at hdec
    dsimp only at hdec
    split_ifs at hdec with hb hr
    · injection hdec with hi
      obtain ⟨hr1, hr2⟩ := hr
      rw [hi] at hr1 hr2
      have hj : i.toNat < (vals.insertionSort (· ≤ ·)).length := by
        rw [hlen2]
        omega
      refine ⟨hr1, hj, (vals.insertionSort (· ≤ ·)).get ⟨i.toNat, hj⟩, ?_, ?_⟩
      · rw [GridVar.decode, hdec0]
        exact List.get?_eq_get hj
      · exact ((List.perm_insertionSort (· ≤ ·) vals).mem_iff).mp
          (List.get_mem _ _ _)

/-- Witness for C10 on the grid `[2, 1]` and the encoded slice `[0]`. -/
theorem grid_decode_index_in_range_instance :
    0 ≤ (0 : ℤ) ∧
    (0 : ℤ).toNat < (GridVar.values (⟨[(1 : ℚ), 2], ⟨0, 1⟩⟩ : GridVar ℚ)).length ∧
    ∃ x, GridVar.decode (⟨[(1 : ℚ), 2], ⟨0, 1⟩⟩ : GridVar ℚ) [0] = some x ∧
      x ∈ [(2 : ℚ), 1] :=
  grid_decode_index_in_range ℚ inferInstance [2, 1] ⟨[1, 2], ⟨0, 1⟩⟩ [0] 0
    (by with_unfolding_all rfl) (by with_unfolding_all rfl)

/-- C1 is refuted by the code: for the valid configuration
`QuniformVar(5.0000000001, 10.0, 1.0)` (lower ≤ upper, 0 < quantum ≤
upper − lower), the bounds computation succeeds — `round_up` returns `lower`
unchanged through its `isclose` short-circuit, although `lower` is not a
multiple of the quantum — yet decoding the lower endpoint of the bound
raises: `round_nearest` yields `5.0 < lower`, so decode's own
`Invalid decoded value` assertion fails.  The code thereby violates its own
assertion and its own comment that `next_float` prevents decoding a boundary
value outside the valid decoded range. -/
theorem quniform_endpoint_decode_assertion_failure :
    QuniformVar.make (5 + 1/10000000000) 10 1 = some ⟨5 + 1/10000000000, 10, 1⟩ ∧
    (QuniformVar.bound ⟨5 + 1/10000000000, 10, 1⟩).isSome = true ∧
    (QuniformVar.bound ⟨5 + 1/10000000000, 10, 1⟩).map
      (fun b => QuniformVar.decode ⟨5 + 1/10000000000, 10, 1⟩ [b.1]) = some none :=
  ⟨by with_unfolding_all rfl, by with_unfolding_all rfl, by with_unfolding_all rfl⟩

set_option maxRecDepth 40000 in
/-- C2: For every `QuniformVar` configuration whose bounds computation
succeeds, the bound is the single pair
`(next_float(round_up(lower, q) − q/2), prev_float(round_down(upper, q) + q/2))`
(in binary64 arithmetic); the configuration `(-11.1, 9.99, 0.22)` yields
exactly `(-11.109999999999998, 10.009999999999998)`; and repeated access
returns the same value. -/
theorem quniform_bounds_formula_and_example :
    (∀ lower upper quantum b, F64.quniformBound lower upper quantum = some b →
      b = (next_float (F64.sub (F64.round_up lower quantum) (F64.div quantum 2)),
           prev_float (F64.add (F64.round_down upper quantum) (F64.div quantum 2)))) ∧
    F64.quniformBound (F64.pyfloat (-111) 1) (F64.pyfloat 999 2) (F64.pyfloat 22 2) =
      some (F64.pyfloat (-11109999999999998) 15, F64.pyfloat 10009999999999998 15) ∧
    (∀ lower upper quantum,
      F64.quniformBound lower upper quantum = F64.quniformBound lower upper quantum) := by
  refine ⟨?_, by with_unfolding_all rfl, fun _ _ _ => rfl⟩
  intro l u q b h
  simp only [F64.quniformBound] at h
  split_ifs at h
  injection h with h2
  exact h2.symm

set_option maxRecDepth 40000 in
/-- Witness for C2: the formula instantiated at the configuration
`(-11.1, 9.99, 0.22)` produces the pinned bound pair. -/
theorem quniform_bounds_formula_and_example_instance :
    (F64.pyfloat (-11109999999999998) 15, F64.pyfloat 10009999999999998 15) =
      (next_float (F64.sub (F64.round_up (F64.pyfloat (-111) 1) (F64.pyfloat 22 2))
          (F64.div (F64.pyfloat 22 2) 2)),
       prev_float (F64.add (F64.round_down (F64.pyfloat 999 2) (F64.pyfloat 22 2))
          (F64.div (F64.pyfloat 22 2) 2))) :=
  quniform_bounds_formula_and_example.1 _ _ _ _ (by with_unfolding_all rfl)

end Wrapdisc
